import Mathlib

/-!
Shallow embedding of the routing core of the `nova` HTTP router
(`nova.go`, `request.go`) and proofs of the specified properties.

Modelling conventions:
* Go strings are Lean `String`s; the routes in scope are ASCII, so Go's
  byte slicing `s[1:]`, `s[:len(s)-1]` and byte indexing `s[len(s)-1]`
  are modelled by character-list operations (`dropFirst`, `dropLastChar`,
  `lastChar`).
* `strings.Split(s, "/")` is `splitSlash` on the character list (both
  return one empty field on the empty string and keep empty fields).
* Go `map[string]*Node` is an association list `List (String × α)` built
  only through `mapSet`, with `mapFind` as key lookup.
* A Go runtime panic (index/slice out of range, nil-pointer dereference)
  is modelled by `Option.none` in the corresponding operation.
* Handlers are opaque; a handler is identified by a `Nat`.
-/

namespace Nova

/-- `strings.Split(s, "/")` on the character list of `s`: empty fields are
kept and the empty list yields `[[]]`, as in Go. -/
def splitSlash : List Char → List (List Char)
  | [] => [[]]
  | '/' :: rest => [] :: splitSlash rest
  | c :: rest =>
    match splitSlash rest with
    | [] => [[c]]
    | seg :: segs => (c :: seg) :: segs

/-- Go `s[1:]` followed by `strings.Split(·, "/")` (ASCII, so byte slicing
is character dropping). -/
def segments1 (s : String) : List String :=
  (splitSlash (s.data.drop 1)).map fun l => ⟨l⟩

/-- Go `s[1:]`. -/
def dropFirst (s : String) : String := ⟨s.data.drop 1⟩

/-- Go `s[:len(s)-1]`. -/
def dropLastChar (s : String) : String := ⟨s.data.dropLast⟩

/-- Go `s[len(s)-1]`, as an `Option` (`none` on the empty string). -/
def lastChar (s : String) : Option Char := s.data.getLast?

/-- `Route` from `nova.go`: the (normalized) pattern string together with the
handler.  `routeParamsIndex` is created empty by `buildRoute` and never read
on the `nova.go` dispatch path, so it is not modelled. -/
structure Route where
  route : String
  handler : Nat
  deriving DecidableEq, Repr

/-- `Node` from `nova.go`: an optional terminal route plus children keyed by
path segment; the reserved key `""` is the parameter slot. -/
inductive Node where
  | mk : Option Route → List (String × Node) → Node

/-- The `route` field of a node. -/
def Node.route : Node → Option Route
  | .mk r _ => r

/-- The `children` field of a node. -/
def Node.children : Node → List (String × Node)
  | .mk _ c => c

/-- Go map read `m[k]`: `some v` when the key is present. -/
def mapFind {α : Type} : List (String × α) → String → Option α
  | [], _ => none
  | (k2, v) :: rest, k => if k2 = k then some v else mapFind rest k

/-- Go map write `m[k] = v`: replaces the binding of `k` or appends it. -/
def mapSet {α : Type} : List (String × α) → String → α → List (String × α)
  | [], k, v => [(k, v)]
  | (k2, v2) :: rest, k, v =>
      if k2 = k then (k, v) :: rest else (k2, v2) :: mapSet rest k v

/-- The `Server` routing state: `sn.paths`, one tree root per method string
(the empty string is the all-methods sentinel). -/
structure Server where
  paths : List (String × Node)

/-- The server with no registered routes. -/
def emptyServer : Server := ⟨[]⟩

/-- The child key chosen in `addRoute` for one pattern segment `val`:
`""` when `val[0] == ':'`, else `val` itself; `none` models the panic of
`val[0]` on an empty segment. -/
def childKey (v : String) : Option String :=
  match v.data with
  | [] => none
  | c :: _ => some (if c = ':' then "" else v)

/-- The loop body of `addRoute` over the split pattern segments: walk or
create child nodes and set the terminal node's route (overwriting any
previous one).  `none` models a panic on an empty segment. -/
def insertParts : Node → List String → Route → Option Node
  | n, [], _ => some n
  | n, v :: rest, r =>
    match childKey v with
    | none => none
    | some ck =>
      let child := (mapFind n.children ck).getD (Node.mk none [])
      if rest = [] then
        some (Node.mk n.route (mapSet n.children ck (Node.mk (some r) child.children)))
      else
        match insertParts child rest r with
        | none => none
        | some child2 => some (Node.mk n.route (mapSet n.children ck child2))

/-- `addRoute` from `nova.go`: strip one trailing slash, split on `/`, and
insert into the method's tree.  `none` models the two registration-time
panics: `routeStr[len-1]` on the empty pattern, and `routeStr[1:]` after
the pattern `"/"` was stripped to `""`. -/
def addRoute (sv : Server) (method routeStr0 : String) (handler : Nat) : Option Server :=
  if routeStr0 = "" then none
  else
    let routeStr := if lastChar routeStr0 = some '/' then dropLastChar routeStr0 else routeStr0
    if routeStr = "" then none
    else
      let parts := segments1 routeStr
      let root := (mapFind sv.paths method).getD (Node.mk none [])
      match insertParts root parts ⟨routeStr, handler⟩ with
      | none => none
      | some root2 => some ⟨mapSet sv.paths method root2⟩

/-- The walk loop of `climbTree`: at each segment try the literal child,
then the parameter-slot child `""`; `none` when neither exists. -/
def walk : Node → List String → Option Node
  | n, [] => some n
  | n, p :: rest =>
    match mapFind n.children p with
    | some c => walk c rest
    | none =>
      match mapFind n.children "" with
      | some c => walk c rest
      | none => none

/-- `climbTree` from `nova.go`: choose the method tree, falling back to the
all-methods tree only when the method has no tree at all; then walk the
split request path.  The outer `Option` models the panic of `path[1:]` on
an empty path; the inner `Option` is the Go `*Node` result (`none` = nil). -/
def climbTree (sv : Server) (method path : String) : Option (Option Node) :=
  if path = "" then none
  else
    let parts := segments1 path
    match mapFind sv.paths method with
    | some root => some (walk root parts)
    | none =>
      match mapFind sv.paths "" with
      | some root => some (walk root parts)
      | none => some none

/-- The loop of `buildRouteParams` (`request.go`): for each pattern segment
beginning with `':'`, bind its name (sigil stripped) to the request segment
at the same index.  `none` models the panics of `val[0]` on an empty
pattern segment and of `reqParts[index]` past the end. -/
def bindLoop : List String → List String → List (String × String) →
    Option (List (String × String))
  | [], _, m => some m
  | v :: vs, reqs, m =>
    match v.data with
    | [] => none
    | c :: _ =>
      if c = ':' then
        match reqs with
        | [] => none
        | rq :: rest => bindLoop vs rest (mapSet m (dropFirst v) rq)
      else bindLoop vs (reqs.drop 1) m

/-- `buildRouteParams` from `request.go`: split `r.RequestURI[1:]` and
`route[1:]` and run the binding loop. -/
def buildRouteParams (routeStr reqURI : String) : Option (List (String × String)) :=
  if routeStr = "" ∨ reqURI = "" then none
  else bindLoop (segments1 routeStr) (segments1 reqURI) []

/-- `Request.Param`: the bound value or `""` when absent. -/
def paramGet (ps : List (String × String)) (k : String) : String :=
  (mapFind ps k).getD ""

/-- Outcome of the routing part of `ServeHTTP` for one request. -/
inductive Outcome where
  /-- A route matched: its handler runs with the bound parameters. -/
  | dispatched : Nat → List (String × String) → Outcome
  /-- `climbTree` returned nil: fall through to static files, then 404. -/
  | fallthrough : Outcome
  /-- A Go runtime panic.  In particular, when `climbTree` returns a node
  whose `route` is nil, `ServeHTTP` calls `node.route.call(request)` and
  `call` dereferences the nil `*Route` receiver (`r.route`). -/
  | crash : Outcome
  deriving DecidableEq, Repr

/-- The route-lookup-and-dispatch part of `ServeHTTP` (after middleware):
`climbTree`, then `node.route.call`, which builds the route params and
invokes the handler. -/
def dispatch (sv : Server) (method uri : String) : Outcome :=
  match climbTree sv method uri with
  | none => .crash
  | some none => .fallthrough
  | some (some node) =>
    match node.route with
    | none => .crash
    | some r =>
      match buildRouteParams r.route uri with
      | none => .crash
      | some ps => .dispatched r.handler ps

/-- `runMiddleware` from `nova.go`.  A middleware is modelled as a function
from the request/world state to the new state paired with whether it
invoked its continuation (`nextCalled`).  The returned `Bool` is
`stackFinished`: `false` as soon as one middleware does not call next. -/
def runMiddleware {σ : Type} : List (σ → σ × Bool) → σ → σ × Bool
  | [], s => (s, true)
  | f :: rest, s =>
    let r := f s
    if r.2 then runMiddleware rest r.1 else (r.1, false)

/-- The `ServeHTTP` control flow around middleware and routing: when the
middleware stack did not finish, return with no routing (`none`);
otherwise continue to route lookup and dispatch. -/
def serveHTTP {σ : Type} (mws : List (σ → σ × Bool)) (sv : Server)
    (method uri : String) (s : σ) : σ × Option Outcome :=
  let r := runMiddleware mws s
  if r.2 then (r.1, some (dispatch sv method uri)) else (r.1, none)

/-- `staticAsset` from `nova.go`: a static root directory and its HTTP/2
push companions. -/
structure StaticAsset where
  path : String
  pushAssets : List String
  deriving DecidableEq, Repr

/-- `AddStatic` from `nova.go`: append the root only when `os.Stat(dir)`
succeeds (`statOk dir`); otherwise the configuration is left unchanged. -/
def addStatic (statOk : String → Bool) (dirs : List StaticAsset)
    (dir : String) (pushes : List String) : List StaticAsset :=
  if statOk dir then dirs ++ [⟨dir, pushes⟩] else dirs

/-- `strings.Replace(path, "..", "", -1)`: remove the non-overlapping
occurrences of `".."` scanning left to right. -/
def stripDotDot : List Char → List Char
  | [] => []
  | [c] => [c]
  | c1 :: c2 :: rest =>
    if c1 = '.' ∧ c2 = '.' then stripDotDot rest
    else c1 :: stripDotDot (c2 :: rest)

/-- The candidate file path `serveStatic` builds for one static root:
concatenate, strip `".."`, and append `index.html` after a trailing slash.
`none` models the panic of `path[len(path)-1]` on an empty candidate. -/
def candidate (dir reqPath : String) : Option String :=
  let p : String := ⟨stripDotDot (dir ++ reqPath).data⟩
  if p = "" then none
  else some (if lastChar p = some '/' then p ++ "index.html" else p)

/-- `serveStatic` from `nova.go`: try the roots in registration order and
serve the first candidate file that exists (`fs` is the `os.Stat`
existence oracle; reads of an existing file succeed).  Result:
`some (some p)` = file `p` served, `some none` = not served, `none` =
panic. -/
def serveStatic (dirs : List StaticAsset) (fs : String → Bool)
    (reqPath : String) : Option (Option String) :=
  match dirs with
  | [] => some none
  | d :: rest =>
    match candidate d.path reqPath with
    | none => none
    | some p => if fs p then some (some p) else serveStatic rest fs reqPath

/-- Total version of `childKey` for nonempty segments: the tree key used
for a pattern segment (`""` for parameter segments). -/
def ckeyTotal (v : String) : String :=
  if v.data.head? = some ':' then "" else v

/-- A request segment list satisfies a pattern segment list's shape:
equal length, literal segments equal, parameter segments (first character
`':'`) matched by an arbitrary request segment. -/
inductive MatchesShape : List String → List String → Prop where
  | nil : MatchesShape [] []
  | param (v a : String) {ps as : List String} :
      v.data.head? = some ':' → MatchesShape ps as →
      MatchesShape (v :: ps) (a :: as)
  | lit (v : String) {ps as : List String} :
      v ≠ "" → v.data.head? ≠ some ':' → MatchesShape ps as →
      MatchesShape (v :: ps) (v :: as)

/-- The parameter bindings a pattern demands from a request: at some index
the pattern has a parameter segment named `nm` (sigil stripped) and the
request has segment `a`. -/
inductive ParamAt : List String → List String → String → String → Prop where
  | head (v a : String) {ps as : List String} :
      v.data.head? = some ':' → ParamAt (v :: ps) (a :: as) (dropFirst v) a
  | tail (v a : String) {ps as : List String} {nm b : String} :
      ParamAt ps as nm b → ParamAt (v :: ps) (a :: as) nm b

/-- The parameter names of a pattern segment list, in order. -/
def paramNames : List String → List String
  | [] => []
  | v :: rest =>
    if v.data.head? = some ':' then dropFirst v :: paramNames rest
    else paramNames rest

/-- The single-branch tree a lone registration produces: one child per key
with the route at the end. -/
def chain : List String → Route → Node
  | [], r => Node.mk (some r) []
  | k :: ks, r => Node.mk none [(k, chain ks r)]

/-- Follow an exact child-key path down a tree (the tree position of a
registered pattern). -/
def findTerminal : Node → List String → Option Node
  | n, [] => some n
  | n, k :: ks =>
    match mapFind n.children k with
    | some c => findTerminal c ks
    | none => none

/-- The server after `GET /hello/:name` is registered (handler 7). -/
def helloServer : Server :=
  ⟨[("GET", .mk none [("hello", .mk none [("", .mk (some ⟨"/hello/:name", 7⟩) [])])])]⟩

/-- The server after `GET /users` is registered (handler 0). -/
def usersServer : Server :=
  ⟨[("GET", .mk none [("users", .mk (some ⟨"/users", 0⟩) [])])]⟩

/-- `usersServer` after `GET /users` is registered again (handler 2). -/
def usersServer2 : Server :=
  ⟨[("GET", .mk none [("users", .mk (some ⟨"/users", 2⟩) [])])]⟩

/-- The server after `GET /users/:id` is registered (handler 8). -/
def paramSlotServer : Server :=
  ⟨[("GET", .mk none [("users", .mk none [("", .mk (some ⟨"/users/:id", 8⟩) [])])])]⟩

/-- The server after `GET /a/b` is registered (handler 5). -/
def abServer : Server :=
  ⟨[("GET", .mk none [("a", .mk none [("b", .mk (some ⟨"/a/b", 5⟩) [])])])]⟩

/-- The server after the slash-less pattern `users` is registered (handler 4):
the route is stored under the segment `"sers"`. -/
def usersNoSlashServer : Server :=
  ⟨[("GET", .mk none [("sers", .mk (some ⟨"users", 4⟩) [])])]⟩

/-- The tree holding only `/ping` (handler 3). -/
def pingTree : Node := .mk none [("ping", .mk (some ⟨"/ping", 3⟩) [])]

/-- The tree holding only `/a` (handler 9). -/
def aTree : Node := .mk none [("a", .mk (some ⟨"/a", 9⟩) [])]

/-- The server after `All /ping` (all-methods sentinel, handler 3). -/
def allServer : Server := ⟨[("", pingTree)]⟩

/-- `allServer` after `GET /a` is also registered (handler 9). -/
def mixServer : Server := ⟨[("", pingTree), ("GET", aTree)]⟩

/-- A logging middleware that appends 0 and invokes its continuation. -/
def mwLogA : List Nat → List Nat × Bool := fun s => (s ++ [0], true)

/-- A logging middleware that appends 1 and does not invoke its
continuation. -/
def mwLogStop : List Nat → List Nat × Bool := fun s => (s ++ [1], false)

/-- A logging middleware that appends 2 and invokes its continuation. -/
def mwLogC : List Nat → List Nat × Bool := fun s => (s ++ [2], true)

/-- A filesystem where both static roots `a` and `b` contain `f.txt`. -/
def fsBoth : String → Bool := fun p => p == "a/f.txt" || p == "b/f.txt"

/-! ## Helper lemmas -/

/-- Projection of the route component of a node. -/
@[simp] theorem Node.route_mk (r : Option Route) (c : List (String × Node)) :
    (Node.mk r c).route = r := rfl

/-- Projection of the children component of a node. -/
@[simp] theorem Node.children_mk (r : Option Route) (c : List (String × Node)) :
    (Node.mk r c).children = c := rfl

/-- Reading back the key just written into a Go map. -/
theorem mapFind_mapSet_self {α : Type} (m : List (String × α)) (k : String) (v : α) :
    mapFind (mapSet m k v) k = some v := by
  induction m with
  | nil => simp [mapSet, mapFind]
  | cons hd tl ih =>
    obtain ⟨k2, v2⟩ := hd
    by_cases h : k2 = k
    · simp [mapSet, h, mapFind]
    · simp [mapSet, h, mapFind, ih]

/-- Writing one key into a Go map leaves the other keys unchanged. -/
theorem mapFind_mapSet_ne {α : Type} (m : List (String × α)) {k k2 : String}
    (h : k2 ≠ k) (v : α) : mapFind (mapSet m k v) k2 = mapFind m k2 := by
  have hnk : ¬ k = k2 := fun hh => h hh.symm
  induction m with
  | nil => simp [mapSet, mapFind, hnk]
  | cons hd tl ih =>
    obtain ⟨k3, v3⟩ := hd
    by_cases h3 : k3 = k
    · subst h3
      simp [mapSet, mapFind, hnk]
    · by_cases h32 : k3 = k2 <;> simp [mapSet, h3, mapFind, h32, h, ih]

/-- On a nonempty segment `childKey` never panics and computes `ckeyTotal`. -/
theorem childKey_eq {v : String} (h : v ≠ "") : childKey v = some (ckeyTotal v) := by
  obtain ⟨data⟩ := v
  cases data with
  | nil => exact absurd rfl h
  | cons c cs =>
    by_cases hc : c = ':' <;> simp [childKey, ckeyTotal, hc]

/-- Every pattern segment matched by `MatchesShape` is nonempty. -/
theorem MatchesShape.nonempty {ps as : List String} (h : MatchesShape ps as) :
    ∀ v ∈ ps, v ≠ "" := by
  induction h with
  | nil => simp
  | param v a hv _ ih =>
    intro u hu
    rcases List.mem_cons.mp hu with rfl | hu
    · intro he
      rw [he] at hv
      simp at hv
    · exact ih u hu
  | lit v hne _ _ ih =>
    intro u hu
    rcases List.mem_cons.mp hu with rfl | hu
    · exact hne
    · exact ih u hu

/-- Inserting a nonempty valid segment list into the empty root builds a
single chain ending in the route. -/
theorem insertParts_chain (parts : List String) (r : Route)
    (h : ∀ v ∈ parts, v ≠ "") (hne : parts ≠ []) :
    insertParts (Node.mk none []) parts r = some (chain (parts.map ckeyTotal) r) := by
  induction parts with
  | nil => exact absurd rfl hne
  | cons v rest ih =>
    have hv : childKey v = some (ckeyTotal v) :=
      childKey_eq (h v (List.mem_cons_self v rest))
    by_cases hr : rest = []
    · subst hr
      simp [insertParts, hv, mapFind, mapSet, chain, Node.children]
    · have hrest := ih fun u hu => h u (List.mem_cons_of_mem v hu)
      simp [insertParts, hv, hr, mapFind, mapSet, chain, Node.children, hrest]

/-- One walk step through a node whose only child is the parameter slot:
every segment descends into it. -/
theorem walk_slot_step (c : Node) (a : String) (as : List String) :
    walk (Node.mk none [("", c)]) (a :: as) = walk c as := by
  by_cases ha : "" = a
  · simp [walk, mapFind, ha]
  · simp [walk, mapFind, ha]

/-- One walk step through a node whose only child is the literal `v`,
taken with segment `v` itself. -/
theorem walk_lit_step (c : Node) (v : String) (as : List String) :
    walk (Node.mk none [(v, c)]) (v :: as) = walk c as := by
  simp [walk, mapFind]

/-- Walking a chain with request segments that satisfy the pattern's shape
reaches the terminal node holding the route. -/
theorem walk_chain {ps as : List String} (r : Route) (hm : MatchesShape ps as) :
    walk (chain (ps.map ckeyTotal) r) as = some (Node.mk (some r) []) := by
  induction hm with
  | nil => rfl
  | param v a hv _ ih =>
    have hk : ckeyTotal v = "" := by simp [ckeyTotal, hv]
    rw [List.map_cons, hk]
    simp only [chain]
    rw [walk_slot_step]
    exact ih
  | lit v hne hv _ ih =>
    have hk : ckeyTotal v = v := by simp [ckeyTotal, hv]
    rw [List.map_cons, hk]
    simp only [chain]
    rw [walk_lit_step]
    exact ih

/-- `bindLoop` on shape-matched segment lists never panics; with distinct
parameter names every demanded binding is present, and names the pattern
does not bind keep their value from the accumulator. -/
theorem bindLoop_spec {ps as : List String} (hm : MatchesShape ps as)
    (hnd : (paramNames ps).Nodup) (acc : List (String × String)) :
    ∃ out, bindLoop ps as acc = some out ∧
      (∀ nm a, ParamAt ps as nm a → mapFind out nm = some a) ∧
      (∀ nm, nm ∉ paramNames ps → mapFind out nm = mapFind acc nm) := by
  induction hm generalizing acc with
  | nil =>
    refine ⟨acc, rfl, ?_, fun nm _ => rfl⟩
    intro nm a h
    cases h
  | @param v a ps2 as2 hv _ ih =>
    obtain ⟨c, t, hd⟩ : ∃ c t, v.data = c :: t := by
      cases he : v.data with
      | nil => rw [he] at hv; simp at hv
      | cons c t => exact ⟨c, t, rfl⟩
    have hc : c = ':' := by rw [hd] at hv; simpa using hv
    have hpn : paramNames (v :: ps2) = dropFirst v :: paramNames ps2 := by
      simp [paramNames, hv]
    rw [hpn] at hnd
    have hnd2 := List.nodup_cons.mp hnd
    obtain ⟨out, heq, hbind, habs⟩ := ih hnd2.2 (mapSet acc (dropFirst v) a)
    refine ⟨out, ?_, ?_, ?_⟩
    · simp [bindLoop, hd, hc, heq]
    · intro nm b hp
      cases hp with
      | head _ _ _ =>
        rw [habs (dropFirst v) hnd2.1]
        exact mapFind_mapSet_self acc (dropFirst v) a
      | tail _ _ hp2 => exact hbind nm b hp2
    · intro nm hnm
      rw [hpn] at hnm
      have h1 : nm ≠ dropFirst v := fun he => hnm (he ▸ List.mem_cons_self _ _)
      have h2 : nm ∉ paramNames ps2 := fun he => hnm (List.mem_cons_of_mem _ he)
      rw [habs nm h2]
      exact mapFind_mapSet_ne acc h1 a
  | @lit v ps2 as2 hne hv _ ih =>
    obtain ⟨c, t, hd⟩ : ∃ c t, v.data = c :: t := by
      cases he : v.data with
      | nil => exact absurd (String.ext (by simp [he])) hne
      | cons c t => exact ⟨c, t, rfl⟩
    have hc : c ≠ ':' := by
      intro he
      exact hv (by rw [hd, he]; rfl)
    have hpn : paramNames (v :: ps2) = paramNames ps2 := by simp [paramNames, hv]
    rw [hpn] at hnd
    obtain ⟨out, heq, hbind, habs⟩ := ih hnd acc
    refine ⟨out, ?_, ?_, ?_⟩
    · simpa [bindLoop, hd, hc] using heq
    · intro nm b hp
      cases hp with
      | head _ _ hv2 => exact absurd hv2 hv
      | tail _ _ hp2 => exact hbind nm b hp2
    · intro nm hnm
      rw [hpn] at hnm
      exact habs nm hnm

/-- `insertParts` never panics on a list of nonempty segments. -/
theorem insertParts_total (parts : List String) (h : ∀ v ∈ parts, v ≠ "")
    (n : Node) (r : Route) : ∃ n2, insertParts n parts r = some n2 := by
  induction parts generalizing n with
  | nil => exact ⟨n, rfl⟩
  | cons v rest ih =>
    have hv := childKey_eq (h v (List.mem_cons_self v rest))
    by_cases hr : rest = []
    · subst hr
      exact ⟨Node.mk n.route (mapSet n.children (ckeyTotal v)
          (Node.mk (some r)
            ((mapFind n.children (ckeyTotal v)).getD (Node.mk none [])).children)),
        by simp [insertParts, hv]⟩
    · obtain ⟨c2, hc2⟩ :=
        ih (fun u hu => h u (List.mem_cons_of_mem v hu))
          ((mapFind n.children (ckeyTotal v)).getD (Node.mk none []))
      exact ⟨Node.mk n.route (mapSet n.children (ckeyTotal v) c2),
        by simp [insertParts, hv, hr, hc2]⟩

/-- After an insertion, following the inserted key path finds the inserted
route, whatever the tree held before. -/
theorem findTerminal_insertParts (parts : List String)
    (hp : ∀ v ∈ parts, v ≠ "") (hne : parts ≠ []) (n n2 : Node) (r : Route)
    (hins : insertParts n parts r = some n2) :
    (findTerminal n2 (parts.map ckeyTotal)).bind Node.route = some r := by
  induction parts generalizing n n2 with
  | nil => exact absurd rfl hne
  | cons v rest ih =>
    have hv := childKey_eq (hp v (List.mem_cons_self v rest))
    by_cases hr : rest = []
    · subst hr
      simp only [insertParts, hv] at hins
      rw [if_pos trivial, Option.some.injEq] at hins
      subst hins
      simp [findTerminal, mapFind_mapSet_self]
    · rw [show insertParts n (v :: rest) r =
          match insertParts ((mapFind n.children (ckeyTotal v)).getD (Node.mk none []))
              rest r with
          | none => none
          | some child2 =>
              some (Node.mk n.route (mapSet n.children (ckeyTotal v) child2))
        from by simp [insertParts, hv, hr]] at hins
      cases hc : insertParts ((mapFind n.children (ckeyTotal v)).getD (Node.mk none []))
          rest r with
      | none => rw [hc] at hins; cases hins
      | some child2 =>
        rw [hc] at hins
        cases hins
        simp only [List.map_cons, findTerminal, Node.children_mk, mapFind_mapSet_self]
        exact ih (fun u hu => hp u (List.mem_cons_of_mem v hu)) hr _ _ hc

/-- Stripping `".."` keeps every character other than `'.'`. -/
theorem mem_stripDotDot {c : Char} (hc : c ≠ '.') (l : List Char) :
    c ∈ l → c ∈ stripDotDot l := by
  induction l using stripDotDot.induct with
  | case1 =>
    intro hm
    cases hm
  | case2 a =>
    intro hm
    simpa [stripDotDot] using hm
  | case3 c1 c2 rest hcond ih =>
    intro hm
    rw [stripDotDot, if_pos hcond]
    rcases List.mem_cons.mp hm with rfl | hm2
    · exact absurd hcond.1 hc
    · rcases List.mem_cons.mp hm2 with rfl | hm3
      · exact absurd hcond.2 hc
      · exact ih hm3
  | case4 c1 c2 rest hcond ih =>
    intro hm
    rw [stripDotDot, if_neg hcond]
    rcases List.mem_cons.mp hm with rfl | hm2
    · exact List.mem_cons_self _ _
    · exact List.mem_cons_of_mem _ (ih hm2)

/-- String concatenation concatenates the character lists. -/
theorem data_append_eq (s t : String) : (s ++ t).data = s.data ++ t.data := by
  cases s
  cases t
  rfl

/-- A request path containing a slash always yields a candidate file path
(the sanitizing strip never removes slashes, so the Go code's trailing
byte access cannot panic). -/
theorem candidate_total (dir reqPath : String) (h : '/' ∈ reqPath.data) :
    ∃ p, candidate dir reqPath = some p := by
  have hmem : '/' ∈ stripDotDot (dir ++ reqPath).data := by
    refine mem_stripDotDot (by decide) _ ?_
    rw [data_append_eq]
    exact List.mem_append_right _ h
  have hne : (⟨stripDotDot (dir ++ reqPath).data⟩ : String) ≠ "" := by
    intro he
    have hd := congrArg String.data he
    simp only at hd
    rw [hd] at hmem
    cases hmem
  refine ⟨if lastChar ⟨stripDotDot (dir ++ reqPath).data⟩ = some '/' then
      (⟨stripDotDot (dir ++ reqPath).data⟩ : String) ++ "index.html"
    else ⟨stripDotDot (dir ++ reqPath).data⟩, ?_⟩
  simp only [candidate]
  rw [if_neg hne]

/-- Running a concatenated middleware stack: the suffix runs only when the
prefix finished with every continuation invoked. -/
theorem runMiddleware_append {σ : Type} (l1 l2 : List (σ → σ × Bool)) (s : σ) :
    runMiddleware (l1 ++ l2) s =
      (if (runMiddleware l1 s).2 then runMiddleware l2 (runMiddleware l1 s).1
       else runMiddleware l1 s) := by
  induction l1 generalizing s with
  | nil => simp [runMiddleware]
  | cons f rest ih =>
    by_cases h : (f s).2 <;> simp [runMiddleware, h, ih]

/-! ## Claim theorems -/

/-- C1: for a registered pattern (given by its segment list) and any request
path whose segments satisfy the pattern's shape, the walk of the tree built
for that pattern reaches the terminal node carrying the registered route,
`bindLoop` succeeds, and every parameter name of the pattern (sigil
stripped) is bound to the request segment at the same index; concretely,
registering GET `/hello/:name` and looking up `/hello/world` dispatches
that route with `name` bound to `"world"`. -/
theorem climb_single_pattern_binds_params
    (pparts aparts : List String) (r : Route)
    (hm : MatchesShape pparts aparts) (hne : pparts ≠ [])
    (hnd : (paramNames pparts).Nodup) :
    (insertParts (Node.mk none []) pparts r).bind (fun n => walk n aparts)
        = some (Node.mk (some r) []) ∧
    (bindLoop pparts aparts []).isSome = true ∧
    (∀ nm a, ParamAt pparts aparts nm a →
      (bindLoop pparts aparts []).map (fun ps => paramGet ps nm) = some a) ∧
    dispatch helloServer "GET" "/hello/world" = .dispatched 7 [("name", "world")] := by
  obtain ⟨out, heq, hbind, _⟩ := bindLoop_spec hm hnd []
  refine ⟨?_, by simp [heq], ?_, rfl⟩
  · rw [insertParts_chain pparts r (MatchesShape.nonempty hm) hne]
    simp [walk_chain r hm]
  · intro nm a hp
    rw [heq]
    simp [paramGet, hbind nm a hp]

/-- Witness for C1 at the concrete scenario of the claim. -/
theorem climb_single_pattern_binds_params_witness :
    (insertParts (Node.mk none []) ["hello", ":name"] ⟨"/hello/:name", 7⟩).bind
        (fun n => walk n ["hello", "world"])
      = some (Node.mk (some ⟨"/hello/:name", 7⟩) []) ∧
    (bindLoop ["hello", ":name"] ["hello", "world"] []).map
        (fun ps => paramGet ps "name") = some "world" := by
  have hm : MatchesShape ["hello", ":name"] ["hello", "world"] :=
    MatchesShape.lit "hello" (by decide) (by decide)
      (MatchesShape.param ":name" "world" (by decide) MatchesShape.nil)
  have h := climb_single_pattern_binds_params ["hello", ":name"] ["hello", "world"]
      ⟨"/hello/:name", 7⟩ hm (by decide) (by decide)
  refine ⟨h.1, ?_⟩
  have hp : ParamAt ["hello", ":name"] ["hello", "world"] (dropFirst ":name") "world" :=
    ParamAt.tail "hello" "hello" (ParamAt.head ":name" "world" (by decide))
  exact h.2.2.1 (dropFirst ":name") "world" hp

/-- C2: a route registered under the all-methods sentinel (method `""`) is
found for every concrete method that has no tree of its own (first
conjunct: lookup then behaves exactly as under the sentinel method), and
as soon as the method has a tree the all-methods tree is never consulted,
even when the walk fails mid-way (second conjunct: the result only depends
on the method's own tree). -/
theorem allmethods_fallback_root_only (sv : Server) (method path : String) :
    (mapFind sv.paths method = none →
      climbTree sv method path = climbTree sv "" path) ∧
    ∀ root, mapFind sv.paths method = some root →
      climbTree sv method path = climbTree ⟨[(method, root)]⟩ method path := by
  constructor
  · intro h
    by_cases hp : path = ""
    · simp [climbTree, hp]
    · simp only [climbTree, if_neg hp, h]
      cases hq : mapFind sv.paths "" <;> simp [hq]
  · intro root h
    by_cases hp : path = ""
    · simp [climbTree, hp]
    · simp [climbTree, hp, h, mapFind]

/-- Witness for C2: `All /ping` is reachable via GET on a server with no
GET tree, and on a server that has a GET tree the lookup of `/ping` via
GET ignores the all-methods tree and misses. -/
theorem allmethods_fallback_root_only_witness :
    climbTree allServer "GET" "/ping" = climbTree allServer "" "/ping" ∧
    dispatch allServer "GET" "/ping" = .dispatched 3 [] ∧
    climbTree mixServer "GET" "/ping" = climbTree ⟨[("GET", aTree)]⟩ "GET" "/ping" ∧
    dispatch mixServer "GET" "/ping" = .fallthrough := by
  have h1 := (allmethods_fallback_root_only allServer "GET" "/ping").1 rfl
  have h2 := (allmethods_fallback_root_only mixServer "GET" "/ping").2 aTree rfl
  exact ⟨h1, rfl, h2, rfl⟩

/-- C3 (evaluation at the failing input): with GET `/a/b` registered, the
one-segment-longer request `/a/b/c` falls through to not-found as the
claim states, but the one-segment-shorter request `/a` ends at a node
with no route and `ServeHTTP` dereferences the nil `*Route` — a crash,
not a not-found response. -/
theorem shorter_path_crash_eval :
    addRoute emptyServer "GET" "/a/b" 5 = some abServer ∧
    dispatch abServer "GET" "/a/b/c" = .fallthrough ∧
    dispatch abServer "GET" "/a" = .crash ∧
    dispatch abServer "GET" "/a/b" = .dispatched 5 [] :=
  ⟨rfl, rfl, rfl, rfl⟩

/-- C4: if the middleware before `m1` all invoke their continuations and
`m1` does not, the whole `ServeHTTP` run stops at `m1`'s state: the
middleware after `m1` and the routing table are never consulted (the
result does not depend on `post` or on the server) and no dispatch
happens; and whenever the whole stack invokes its continuations, the
caller proceeds to routing. -/
theorem middleware_short_circuit {σ : Type}
    (pre : List (σ → σ × Bool)) (m1 : σ → σ × Bool) (post : List (σ → σ × Bool))
    (sv : Server) (method uri : String) (s s1 s2 : σ)
    (hpre : runMiddleware pre s = (s1, true)) (hm1 : m1 s1 = (s2, false)) :
    serveHTTP (pre ++ m1 :: post) sv method uri s = (s2, none) ∧
    ∀ (mws : List (σ → σ × Bool)) (s3 : σ),
      runMiddleware mws s = (s3, true) →
      serveHTTP mws sv method uri s = (s3, some (dispatch sv method uri)) := by
  constructor
  · have h1 : runMiddleware (pre ++ m1 :: post) s = (s2, false) := by
      rw [runMiddleware_append, hpre]
      simp [runMiddleware, hm1]
    simp [serveHTTP, h1]
  · intro mws s3 h3
    simp [serveHTTP, h3]

/-- Witness for C4 with logging middleware: the stopping middleware leaves
the log at `[0, 1]` (middleware 2 never ran) and no routing happened; the
all-continue stack reaches routing. -/
theorem middleware_short_circuit_witness :
    serveHTTP [mwLogA, mwLogStop, mwLogC] emptyServer "GET" "/x" ([] : List Nat)
        = ([0, 1], none) ∧
    serveHTTP [mwLogA, mwLogC] emptyServer "GET" "/x" ([] : List Nat)
        = ([0, 2], some (dispatch emptyServer "GET" "/x")) := by
  have h := middleware_short_circuit [mwLogA] mwLogStop [mwLogC] emptyServer "GET" "/x"
      ([] : List Nat) [0] [0, 1] rfl rfl
  exact ⟨h.1, h.2 [mwLogA, mwLogC] [0, 2] rfl⟩

/-- C5 (evaluation at the failing input): registering the pattern `/`
panics — the trailing-slash strip reduces it to the empty string and the
subsequent `routeStr[1:]` is a slice out of range — instead of succeeding
as the claim states. -/
theorem root_pattern_registration_panics (sv : Server) (method : String) (handler : Nat) :
    addRoute sv method "/" handler = none := rfl

/-- C6 counterexample: with GET `/users` registered, looking up `/users/`
does not return the same result as looking up `/users`. -/
theorem trailing_slash_lookup_differs :
    dispatch usersServer "GET" "/users/" ≠ dispatch usersServer "GET" "/users" := by
  decide

/-- C6 amended: request paths are not trailing-slash normalized; a path
ending in `/` contributes one extra empty segment, and the walk consumes
it through the parameter-slot child `""` of the node the stripped path
reaches (first conjunct).  Hence `/users/` misses a registered `/users`
but matches a registered `/users/:id` with `id` bound to `""`. -/
theorem trailing_slash_no_normalization :
    (∀ (root : Node) (parts : List String),
      walk root (parts ++ [""]) = (walk root parts).bind fun n => mapFind n.children "") ∧
    addRoute emptyServer "GET" "/users" 0 = some usersServer ∧
    dispatch usersServer "GET" "/users" = .dispatched 0 [] ∧
    dispatch usersServer "GET" "/users/" = .fallthrough ∧
    dispatch paramSlotServer "GET" "/users/" = .dispatched 8 [("id", "")] := by
  refine ⟨?_, rfl, rfl, rfl, rfl⟩
  intro root parts
  induction parts generalizing root with
  | nil =>
    cases hq : mapFind root.children "" <;> simp [walk, hq]
  | cons p rest ih =>
    cases hq : mapFind root.children p with
    | some c => simp [walk, hq, ih]
    | none =>
      cases hq2 : mapFind root.children "" with
      | some c => simp [walk, hq, hq2, ih]
      | none => simp [walk, hq, hq2]

/-- C7: inserting a second pattern with the same child-key shape (in any
tree, after any prior insertions) raises no error and overwrites the
terminal node's route, so the position of the first pattern holds exactly
the second route; concretely, re-registering GET `/users` replaces
handler 0 by handler 2. -/
theorem same_shape_reregistration_overwrites
    (n : Node) (parts1 parts2 : List String) (r1 r2 : Route)
    (h1 : ∀ v ∈ parts1, v ≠ "") (h2 : ∀ v ∈ parts2, v ≠ "")
    (hne : parts2 ≠ [])
    (hkeys : parts1.map ckeyTotal = parts2.map ckeyTotal) :
    ((insertParts n parts1 r1).bind fun n1 =>
      (insertParts n1 parts2 r2).bind fun n2 =>
        (findTerminal n2 (parts1.map ckeyTotal)).bind Node.route) = some r2 ∧
    addRoute usersServer "GET" "/users" 2 = some usersServer2 ∧
    dispatch usersServer2 "GET" "/users" = .dispatched 2 [] := by
  refine ⟨?_, rfl, rfl⟩
  obtain ⟨n1, hn1⟩ := insertParts_total parts1 h1 n r1
  obtain ⟨n2, hn2⟩ := insertParts_total parts2 h2 n1 r2
  rw [hn1, Option.some_bind, hn2, Option.some_bind, hkeys]
  exact findTerminal_insertParts parts2 h2 hne n1 n2 r2 hn2

/-- Witness for C7: two parameter routes differing only in parameter name
share one tree position and the second registration wins. -/
theorem same_shape_reregistration_overwrites_witness :
    ((insertParts (Node.mk none []) ["x", ":a"] ⟨"/x/:a", 1⟩).bind fun n1 =>
      (insertParts n1 ["x", ":b"] ⟨"/x/:b", 2⟩).bind fun n2 =>
        (findTerminal n2 (["x", ":a"].map ckeyTotal)).bind Node.route)
      = some ⟨"/x/:b", 2⟩ :=
  (same_shape_reregistration_overwrites (Node.mk none []) ["x", ":a"] ["x", ":b"]
      ⟨"/x/:a", 1⟩ ⟨"/x/:b", 2⟩ (by decide) (by decide) (by decide) (by decide)).1

/-- C8: the static server tries the configured roots strictly in
registration order and serves the first root whose candidate file exists;
in particular when several roots contain the file, the first-registered
one wins. -/
theorem static_roots_first_hit (assets : List StaticAsset) (fs : String → Bool)
    (reqPath : String) (h : '/' ∈ reqPath.data) :
    serveStatic assets fs reqPath =
      some ((assets.filterMap fun a => candidate a.path reqPath).find? fs) := by
  induction assets with
  | nil => rfl
  | cons d rest ih =>
    obtain ⟨p, hp⟩ := candidate_total d.path reqPath h
    cases hf : fs p with
    | true => simp [serveStatic, hp, hf, List.find?]
    | false => simp [serveStatic, hp, hf, List.find?, ih]

/-- Witness for C8: roots `a` and `b` both hold `f.txt`; the file is
served from `a`. -/
theorem static_roots_first_hit_witness :
    serveStatic [⟨"a", []⟩, ⟨"b", []⟩] fsBoth "/f.txt" = some (some "a/f.txt") := by
  have h := static_roots_first_hit [⟨"a", []⟩, ⟨"b", []⟩] fsBoth "/f.txt" (by decide)
  rw [h]
  rfl

/-- C9 counterexample: the pattern `users` does not start with `/`, yet
registration does not panic — the route is silently stored (under the
segment `sers`). -/
theorem nonslash_pattern_registers :
    addRoute emptyServer "GET" "users" 4 = some usersNoSlashServer := rfl

/-- C9 amended: registering the empty pattern panics at registration time,
but a pattern that merely fails to start with `/` is not reliably
rejected: `users` is silently stored with its first character treated as
the leading slash (segment `sers`), deferring the failure to lookup time
(a GET of `/users` misses it). -/
theorem malformed_pattern_handling :
    (∀ (sv : Server) (method : String) (handler : Nat),
      addRoute sv method "" handler = none) ∧
    addRoute emptyServer "GET" "users" 4 = some usersNoSlashServer ∧
    dispatch usersNoSlashServer "GET" "/users" = .fallthrough :=
  ⟨fun _ _ _ => rfl, rfl, rfl⟩

/-- C10: when the directory does not exist (`os.Stat` fails), `AddStatic`
leaves the configured static roots unchanged, so the static server's
behavior is unaffected. -/
theorem addStatic_missing_dir_unchanged (statOk : String → Bool)
    (dirs : List StaticAsset) (d : String) (pushes : List String)
    (fs : String → Bool) (reqPath : String) (h : statOk d = false) :
    addStatic statOk dirs d pushes = dirs ∧
    serveStatic (addStatic statOk dirs d pushes) fs reqPath =
      serveStatic dirs fs reqPath := by
  constructor <;> simp [addStatic, h]

/-- Witness for C10 on a concrete missing directory. -/
theorem addStatic_missing_dir_unchanged_witness :
    addStatic (fun _ => false) [⟨"a", []⟩] "missing" [] = [⟨"a", []⟩] ∧
    serveStatic (addStatic (fun _ => false) [⟨"a", []⟩] "missing" []) fsBoth "/f.txt" =
      serveStatic [⟨"a", []⟩] fsBoth "/f.txt" :=
  addStatic_missing_dir_unchanged (fun _ => false) [⟨"a", []⟩] "missing" [] fsBoth
    "/f.txt" rfl

end Nova
